import Mathlib

/-!
Verification of the basic TCP web server (`src/unnamed/part_002`, the
route-table revision, whose `parseRequest` coincides with `src/src/server.ts`).

The embedding translates each TypeScript function into a Lean function:

* JavaScript `String.prototype.split(sep)` (nonempty separator) splits on
  every non-overlapping occurrence of `sep`, scanning left to right, and
  returns at least one segment.  It is modelled by `splitSep` below
  (structurally recursive via a character-count fuel so that the kernel can
  evaluate it).
* JavaScript object assignment `obj[k] = v` replaces the value at an existing
  key in place, otherwise appends the binding; `obj[k]` is the value of the
  first (unique) binding.  Modelled by `setKey` / `getKey` on association
  lists.
* `method.toUpperCase()` is modelled by ASCII upper-casing (`toUpperJS`);
  the server only ever compares ASCII method tokens.
* `Buffer.byteLength(s)` (default utf8 encoding) is the UTF-8 byte length of
  the string, computed per code point; modelled by `utf8Len`.
* `new URLSearchParams(body)` implements the WHATWG
  application/x-www-form-urlencoded parser: split on `&`, drop empty
  segments, split each pair at the first `=`, replace `+` by space, then
  percent-decode (bytewise) and UTF-8-decode name and value.  Modelled by
  `urlParams` and its helpers.
-/

/-- Prepend an element to the first segment of a split result. -/
def consHead {α : Type} (c : α) : List (List α) → List (List α)
  | [] => [[c]]
  | s :: ss => (c :: s) :: ss

/-- Prepend a whole list to the first segment of a split result. -/
def prependFirst {α : Type} (h : List α) : List (List α) → List (List α)
  | [] => [h]
  | s :: ss => (h ++ s) :: ss

/-- `splitSep` worker.  The fuel argument is only there to make the recursion
structural (every step consumes at least one character, so `l.length` fuel is
always enough); `splitSepFuel_congr` below shows the result does not depend on
the fuel. -/
def splitSepFuel (sep : List Char) : Nat → List Char → List (List Char)
  | _, [] => [[]]
  | 0, l => [l]
  | fuel + 1, c :: rest =>
    if (!sep.isEmpty) && sep.isPrefixOf (c :: rest) then
      [] :: splitSepFuel sep fuel ((c :: rest).drop sep.length)
    else
      consHead c (splitSepFuel sep fuel rest)

/-- JavaScript `String.prototype.split` on lists of characters, for a
nonempty separator: split on every non-overlapping occurrence of `sep`,
left to right.  Always returns at least one segment. -/
def splitSep (sep l : List Char) : List (List Char) :=
  splitSepFuel sep l.length l

/-- JavaScript `s.split(sep)` on strings. -/
def jsSplit (s sep : String) : List String :=
  (splitSep sep.data s.data).map (fun l => String.mk l)

/-- JavaScript object assignment `obj[k] = v` on an association list:
replace in place if the key is present, else append. -/
def setKey {α : Type} : List (String × α) → String → α → List (String × α)
  | [], k, v => [(k, v)]
  | (k', v') :: rest, k, v =>
    if k' = k then (k, v) :: rest else (k', v') :: setKey rest k v

/-- JavaScript object lookup `obj[k]` on an association list. -/
def getKey {α : Type} : List (String × α) → String → Option α
  | [], _ => none
  | (k', v) :: rest, k => if k' = k then some v else getKey rest k

/-- ASCII upper-casing of one character (the effect of
`String.prototype.toUpperCase` on the ASCII method tokens the server uses). -/
def upChar (c : Char) : Char :=
  if 'a' ≤ c ∧ c ≤ 'z' then Char.ofNat (c.toNat - 32) else c

/-- `method.toUpperCase()`. -/
def toUpperJS (s : String) : String := String.mk (s.data.map upChar)

/-- The decoded request structure produced by `parseRequest`.
`path` and header values are `Option` because the destructuring
`const [method, path] = line.split(" ")` (resp. `split(": ")`) yields
JavaScript `undefined` when the split produces a single segment. -/
structure HttpRequest where
  method : String
  path : Option String
  headers : List (String × Option String)
  body : String
deriving DecidableEq

/-- The response structure handlers return. -/
structure HttpResponse where
  statusCode : Int
  contentType : String
  body : String
deriving DecidableEq

/-- A route handler. -/
def Handler : Type := HttpRequest → HttpResponse

/-- The nested `routes` record: method (upper-cased) to path to handler. -/
def RouteTable : Type := List (String × List (String × Handler))

/-- `registerRoute(method, path, handler)`: store `handler` under the
upper-cased method and the exact path, creating the inner record if absent. -/
def registerRoute (routes : RouteTable) (method path : String) (handler : Handler) :
    RouteTable :=
  let upperMethod := toUpperJS method
  let inner := (getKey routes upperMethod).getD []
  setKey routes upperMethod (setKey inner path handler)

/-- The route lookup performed by `handleRequest`:
`this.routes[request.method.toUpperCase()]`, then the exact path. -/
def getRoute (routes : RouteTable) (method path : String) : Option Handler :=
  match getKey routes (toUpperJS method) with
  | some methodRoutes => getKey methodRoutes path
  | none => none

/-- JavaScript object indexing stringifies an `undefined` key, so
`methodRoutes[request.path]` with an undefined path looks up `"undefined"`. -/
def jsKey : Option String → String
  | some p => p
  | none => "undefined"

/-- `handleRequest`: dispatch through the route table, or answer the default
404 response. -/
def handleRequest (routes : RouteTable) (request : HttpRequest) : HttpResponse :=
  match getKey routes (toUpperJS request.method) with
  | some methodRoutes =>
    match getKey methodRoutes (jsKey request.path) with
    | some handler => handler request
    | none => ⟨404, "text/plain", "Not Found"⟩
  | none => ⟨404, "text/plain", "Not Found"⟩

/-- One step of the header loop: `const [key, value] = line.split(": ")`. -/
def parseHeaderLine (line : String) : String × Option String :=
  let kv := jsSplit line ": "
  (kv.headD "", kv[1]?)

/-- `parseRequest`: split the buffer on `"\r\n\r\n"`, split the head on
`"\r\n"`, split the first line on `" "` into method and path, and split every
further head line on `": "` into a header binding (`headers[key] = value`).
`body` is `bodyPart || ""`: the second split segment, or `""` when the split
produced a single segment. -/
def parseRequest (request : String) : HttpRequest :=
  let parts := jsSplit request "\r\n\r\n"
  let headerPart := parts.headD ""
  let bodyPart := parts[1]?
  let headerLines := jsSplit headerPart "\r\n"
  let rl := jsSplit (headerLines.headD "") " "
  let headers := (headerLines.drop 1).foldl
    (fun acc line =>
      let kv := parseHeaderLine line
      setKey acc kv.1 kv.2) []
  { method := rl.headD "", path := rl[1]?, headers := headers,
    body := bodyPart.getD "" }

/-- UTF-8 byte count of one code point, as `Buffer.byteLength` computes it. -/
def utf8CharLen (c : Char) : Nat :=
  if c.toNat < 0x80 then 1
  else if c.toNat < 0x800 then 2
  else if c.toNat < 0x10000 then 3
  else 4

/-- `Buffer.byteLength(s)` with the default utf8 encoding. -/
def utf8Len (s : String) : Nat :=
  s.data.foldl (fun n c => n + utf8CharLen c) 0

/-- The reason phrase of the status line:
`response.statusCode === 200 ? "OK" : "Error"`. -/
def reasonPhrase (statusCode : Int) : String :=
  if statusCode = 200 then "OK" else "Error"

/-- `sendResponse`: the raw response text written to the socket. -/
def sendResponse (response : HttpResponse) : String :=
  "HTTP/1.1 " ++ toString response.statusCode ++ " " ++
    reasonPhrase response.statusCode ++ "\r\n" ++
  "Content-Type: " ++ response.contentType ++ "\r\n" ++
  "Content-Length: " ++ toString (utf8Len response.body) ++ "\r\n\r\n" ++
  response.body

/-- Does `p` occur as a contiguous run inside `l`?  (JavaScript
`String.prototype.includes`, used here to phrase well-formedness
hypotheses.) -/
def hasSubList (p : List Char) : List Char → Bool
  | [] => p.isEmpty
  | c :: rest => p.isPrefixOf (c :: rest) || hasSubList p rest

/-- `hasSub pat s`: does `pat` occur as a substring of `s`? -/
def hasSub (pat s : String) : Bool := hasSubList pat.data s.data

/-- `scanClean sep l t`: scanning `l ++ t` from any position strictly inside
`l` never matches `sep`. -/
def scanClean (sep l t : List Char) : Prop :=
  ∀ j, j < l.length → sep.isPrefixOf (l.drop j ++ t) = false

/-- The CRLF line separator, as characters. -/
@[reducible] def crlf : List Char := ['\r', '\n']

/-- The blank-line delimiter, as characters. -/
@[reducible] def crlf2 : List Char := ['\r', '\n', '\r', '\n']

/-- The header name/value separator `": "`, as characters. -/
@[reducible] def colonSp : List Char := [':', ' ']

/-- Join the tail lines of a head section, each preceded by CRLF. -/
def joinTail : List (List Char) → List Char
  | [] => []
  | l :: rest => crlf ++ l ++ joinTail rest

/-- Join a head section's lines with CRLF separators. -/
def joinLines : List (List Char) → List Char
  | [] => []
  | l :: rest => l ++ joinTail rest

/-- The characters of one rebuilt header line `name ++ ": " ++ value`. -/
def lineChars (q : String × String) : List Char :=
  q.1.data ++ colonSp ++ q.2.data

/-- The header block of a reassembled request: each header contributes a
line `"\r\n" ++ name ++ ": " ++ value`. -/
def headerText : List (String × String) → String
  | [] => ""
  | (n, v) :: rest => "\r\n" ++ n ++ ": " ++ v ++ headerText rest

/-- Reassemble the wire text of a request from its decoded components:
request line, CRLF-separated `Name: Value` header lines, a blank line, then
the body (the reassembly the specification's round-trip property speaks
about). -/
def assemble (m p : String) (hs : List (String × String)) (b : String) : String :=
  m ++ " " ++ p ++ headerText hs ++ "\r\n\r\n" ++ b

/-- UTF-8 encoding of one code point, as a list of byte values. -/
def utf8EncodeChar (c : Char) : List Nat :=
  let n := c.toNat
  if n < 0x80 then [n]
  else if n < 0x800 then [0xC0 + n / 64, 0x80 + n % 64]
  else if n < 0x10000 then [0xE0 + n / 4096, 0x80 + n / 64 % 64, 0x80 + n % 64]
  else [0xF0 + n / 262144, 0x80 + n / 4096 % 64, 0x80 + n / 64 % 64, 0x80 + n % 64]

/-- The UTF-8 bytes of a string. -/
def strBytes (s : String) : List Nat :=
  (s.data.map utf8EncodeChar).flatten

/-- The Unicode replacement character U+FFFD. -/
def replChar : Char := Char.ofNat 0xFFFD

/-- Is this byte a UTF-8 continuation byte (0x80..0xBF)? -/
def contByte (b : Nat) : Bool := 0x80 ≤ b && b < 0xC0

/-- `utf8DecodeBytes` worker; the fuel (any number at least the list length)
only makes the recursion structural, every step consumes at least one byte. -/
def utf8DecodeFuel : Nat → List Nat → List Char
  | _, [] => []
  | 0, _ => []
  | fuel + 1, b :: rest =>
    if b < 0x80 then Char.ofNat b :: utf8DecodeFuel fuel rest
    else if 0xC2 ≤ b && b < 0xE0 then
      match rest with
      | b2 :: rest2 =>
        if contByte b2 then
          Char.ofNat ((b - 0xC0) * 64 + (b2 - 0x80)) :: utf8DecodeFuel fuel rest2
        else replChar :: utf8DecodeFuel fuel rest
      | [] => [replChar]
    else if 0xE0 ≤ b && b < 0xF0 then
      match rest with
      | b2 :: b3 :: rest3 =>
        if (if b = 0xE0 then 0xA0 else 0x80) ≤ b2 &&
            b2 < (if b = 0xED then 0xA0 else 0xC0) && contByte b3 then
          Char.ofNat ((b - 0xE0) * 4096 + (b2 - 0x80) * 64 + (b3 - 0x80)) ::
            utf8DecodeFuel fuel rest3
        else replChar :: utf8DecodeFuel fuel rest
      | _ => replChar :: utf8DecodeFuel fuel rest
    else if 0xF0 ≤ b && b < 0xF5 then
      match rest with
      | b2 :: b3 :: b4 :: rest4 =>
        if (if b = 0xF0 then 0x90 else 0x80) ≤ b2 &&
            b2 < (if b = 0xF4 then 0x90 else 0xC0) && contByte b3 && contByte b4 then
          Char.ofNat ((b - 0xF0) * 262144 + (b2 - 0x80) * 4096 +
              (b3 - 0x80) * 64 + (b4 - 0x80)) :: utf8DecodeFuel fuel rest4
        else replChar :: utf8DecodeFuel fuel rest
      | _ => replChar :: utf8DecodeFuel fuel rest
    else replChar :: utf8DecodeFuel fuel rest

/-- UTF-8 decoding of a byte list; ill-formed sequences decode to the
replacement character (as the WHATWG UTF-8 decoder used by `URLSearchParams`
does). -/
def utf8DecodeBytes (bs : List Nat) : List Char :=
  utf8DecodeFuel bs.length bs

/-- Value of an ASCII hex digit byte. -/
def hexDigitVal (b : Nat) : Option Nat :=
  if 48 ≤ b ∧ b ≤ 57 then some (b - 48)
  else if 65 ≤ b ∧ b ≤ 70 then some (b - 55)
  else if 97 ≤ b ∧ b ≤ 102 then some (b - 87)
  else none

/-- Bytewise percent-decoding: `%` followed by two hex digits becomes the
denoted byte; any other `%` stays literal. -/
def percentDecode : List Nat → List Nat
  | [] => []
  | 37 :: h1 :: h2 :: rest =>
    match hexDigitVal h1, hexDigitVal h2 with
    | some a, some b => (16 * a + b) :: percentDecode rest
    | _, _ => 37 :: percentDecode (h1 :: h2 :: rest)
  | b :: rest => b :: percentDecode rest

/-- Decode one form-urlencoded token: `+` to space, percent-decode, UTF-8
decode. -/
def formDecode (bs : List Nat) : String :=
  String.mk (utf8DecodeBytes (percentDecode
    (bs.map (fun b => if b = 43 then 32 else b))))

/-- Split a byte list on every occurrence of one byte. -/
def splitByte (sep : Nat) : List Nat → List (List Nat)
  | [] => [[]]
  | b :: rest =>
    if b = sep then [] :: splitByte sep rest else consHead b (splitByte sep rest)

/-- Split a pair at its first `=` byte: the name, and the value when an `=`
is present. -/
def breakAtEq : List Nat → List Nat × Option (List Nat)
  | [] => ([], none)
  | b :: rest =>
    if b = 61 then ([], some rest)
    else
      let q := breakAtEq rest
      (b :: q.1, q.2)

/-- The name/value pairs of `new URLSearchParams(body)`, in order. -/
def urlParams (s : String) : List (String × String) :=
  ((splitByte 38 (strBytes s)).filter (fun seg => !seg.isEmpty)).map
    (fun seg =>
      let q := breakAtEq seg
      (formDecode q.1, formDecode (q.2.getD [])))

/-- `parseBody`: iterate the `URLSearchParams` pairs into a record
(`parsedBody[key] = value`, so a repeated key keeps its last value). -/
def parseBody (body : String) : List (String × String) :=
  (urlParams body).foldl (fun acc q => setKey acc q.1 q.2) []

theorem hasSubList_iff (p l : List Char) : hasSubList p l = true ↔ p <:+: l := by
  induction l with
  | nil => simp [hasSubList, List.isEmpty_iff]
  | cons c rest ih =>
    simp [hasSubList, List.infix_cons_iff, ih]

/-- The result of `splitSepFuel` does not depend on the fuel, once the fuel
is at least the length of the list. -/
theorem splitSepFuel_congr (sep : List Char) :
    ∀ f1 f2 l, l.length ≤ f1 → l.length ≤ f2 →
      splitSepFuel sep f1 l = splitSepFuel sep f2 l := by
  intro f1
  induction f1 with
  | zero =>
    intro f2 l h1 _
    have hl : l = [] := List.eq_nil_of_length_eq_zero (Nat.le_zero.mp h1)
    subst hl
    cases f2 <;> simp [splitSepFuel]
  | succ f1' ih =>
    intro f2 l h1 h2
    cases l with
    | nil => cases f2 <;> simp [splitSepFuel]
    | cons c rest =>
      cases f2 with
      | zero => simp at h2
      | succ f2' =>
        simp only [List.length_cons, Nat.add_le_add_iff_right] at h1 h2
        simp only [splitSepFuel]
        cases hc : (!sep.isEmpty && sep.isPrefixOf (c :: rest)) with
        | false =>
          simp only [hc, Bool.false_eq_true, if_false]
          exact congrArg (consHead c) (ih f2' rest h1 h2)
        | true =>
          simp only [hc, if_true]
          have hsep : 0 < sep.length := by
            have hne : sep.isEmpty = false := by
              have := (Bool.and_eq_true _ _).mp hc
              simpa using this.1
            cases sep with
            | nil => simp at hne
            | cons a as => simp
          refine congrArg (List.cons []) (ih f2' _ ?_ ?_) <;>
            simp [List.length_drop] <;> omega

theorem splitSep_nil (sep : List Char) : splitSep sep [] = [[]] := rfl

theorem splitSep_cons_pos {sep : List Char} (c : Char) (rest : List Char)
    (hne : sep.isEmpty = false) (hpre : sep.isPrefixOf (c :: rest) = true) :
    splitSep sep (c :: rest) = [] :: splitSep sep ((c :: rest).drop sep.length) := by
  have hsep : 0 < sep.length := by
    cases sep with
    | nil => simp at hne
    | cons a as => simp
  unfold splitSep
  simp only [List.length_cons, splitSepFuel, hne, hpre, Bool.not_false, Bool.true_and,
    if_true]
  refine congrArg (List.cons []) (splitSepFuel_congr sep rest.length _ _ ?_ ?_)
  · simp only [List.length_drop, List.length_cons]
    omega
  · exact Nat.le_refl _

theorem splitSep_cons_neg {sep : List Char} (c : Char) (rest : List Char)
    (hpre : sep.isPrefixOf (c :: rest) = false) :
    splitSep sep (c :: rest) = consHead c (splitSep sep rest) := by
  unfold splitSep
  simp only [List.length_cons, splitSepFuel, hpre, Bool.and_false, Bool.false_eq_true,
    if_false]

theorem consHead_ne_nil {α : Type} (c : α) (xs : List (List α)) :
    consHead c xs ≠ [] := by
  cases xs <;> simp [consHead]

theorem splitSep_ne_nil (sep l : List Char) : splitSep sep l ≠ [] := by
  cases l with
  | nil => simp [splitSep, splitSepFuel]
  | cons c rest =>
    unfold splitSep
    simp only [List.length_cons, splitSepFuel]
    cases hc : (!sep.isEmpty && sep.isPrefixOf (c :: rest)) with
    | true => simp [hc]
    | false =>
      simp only [hc, Bool.false_eq_true, if_false]
      exact consHead_ne_nil c _

theorem consHead_prependFirst {α : Type} (c : α) (h : List α) (xs : List (List α)) :
    consHead c (prependFirst h xs) = prependFirst (c :: h) xs := by
  cases xs <;> simp [consHead, prependFirst]

theorem scanClean_tail {sep : List Char} {c : Char} {l t : List Char}
    (h : scanClean sep (c :: l) t) : scanClean sep l t := by
  intro j hj
  have h2 := h (j + 1) (by simp [Nat.succ_lt_succ hj])
  simpa using h2

/-- Splitting a concatenation whose left part contains no match: the left
part is glued onto the first segment of the split of the right part. -/
theorem splitSep_append {sep : List Char} :
    ∀ {l t : List Char}, scanClean sep l t →
      splitSep sep (l ++ t) = prependFirst l (splitSep sep t) := by
  intro l
  induction l with
  | nil =>
    intro t _
    cases hx : splitSep sep t with
    | nil => exact absurd hx (splitSep_ne_nil sep t)
    | cons s ss => simp [prependFirst, hx]
  | cons c l' ih =>
    intro t h
    have h0 : sep.isPrefixOf (c :: (l' ++ t)) = false := by
      have h2 := h 0 (by simp)
      simpa using h2
    rw [List.cons_append, splitSep_cons_neg c (l' ++ t) h0, ih (scanClean_tail h),
      consHead_prependFirst]

theorem splitSep_sep_self {sep t : List Char} (hne : sep.isEmpty = false) :
    splitSep sep (sep ++ t) = [] :: splitSep sep t := by
  cases sep with
  | nil => simp at hne
  | cons s0 sr =>
    rw [List.cons_append, splitSep_cons_pos s0 (sr ++ t) hne (by simp), ← List.cons_append,
      List.drop_left]

theorem splitSep_eq_single {sep l : List Char} (h : scanClean sep l []) :
    splitSep sep l = [l] := by
  have h2 := splitSep_append (l := l) (t := []) h
  simpa [prependFirst, splitSep_nil] using h2

theorem sub_of_prefixOf_drop {sep l : List Char} {j : Nat}
    (h : sep.isPrefixOf (l.drop j) = true) : hasSubList sep l = true := by
  rw [hasSubList_iff]
  exact List.infix_iff_prefix_suffix.mpr ⟨l.drop j, by simpa using h, List.drop_suffix j l⟩

theorem hasSubList_ext {p l t : List Char} (h : hasSubList p l = true) :
    hasSubList p (l ++ t) = true := by
  rw [hasSubList_iff] at h ⊢
  exact h.trans (List.prefix_append l t).isInfix

theorem scanClean_of_no_sub {sep l : List Char} (h : hasSubList sep l = false) :
    scanClean sep l [] := by
  intro j hj
  rw [Bool.eq_false_iff]
  intro hp
  rw [List.append_nil] at hp
  rw [sub_of_prefixOf_drop hp] at h
  exact Bool.noConfusion h

theorem scanClean_ext {sep q l t : List Char} (h : scanClean sep l t) :
    scanClean (sep ++ q) l t := by
  intro j hj
  rw [Bool.eq_false_iff]
  intro hp
  have h1 : (sep ++ q) <+: (l.drop j ++ t) := by simpa using hp
  have h2 : sep <+: l.drop j ++ t := (List.prefix_append sep q).trans h1
  have h3 := h j hj
  rw [Bool.eq_false_iff] at h3
  exact h3 (by simpa using h2)

theorem scanClean_append {sep l1 l2 t : List Char}
    (h1 : scanClean sep l1 (l2 ++ t)) (h2 : scanClean sep l2 t) :
    scanClean sep (l1 ++ l2) t := by
  intro j hj
  rcases Nat.lt_or_ge j l1.length with hlt | hge
  · rw [Bool.eq_false_iff]
    intro hp
    rw [List.drop_append_of_le_length (Nat.le_of_lt hlt), List.append_assoc] at hp
    have h3 := h1 j hlt
    rw [Bool.eq_false_iff] at h3
    exact h3 hp
  · have hj2 : j - l1.length < l2.length := by
      rw [List.length_append] at hj
      omega
    rw [Bool.eq_false_iff]
    intro hp
    have e : (l1 ++ l2).drop j = l2.drop (j - l1.length) := by
      rw [List.drop_append_eq_append_drop, List.drop_eq_nil_iff.mpr hge, List.nil_append]
    rw [e] at hp
    have h3 := h2 (j - l1.length) hj2
    rw [Bool.eq_false_iff] at h3
    exact h3 hp

/-- A two-character separator with distinct characters never matches while
scanning a separator-free list, when the continuation is empty or starts
with the separator's first character. -/
theorem scanClean_two {a b : Char} {l t : List Char} (hab : a ≠ b)
    (hsub : hasSubList [a, b] l = false)
    (ht : t = [] ∨ ∃ t', t = a :: t') : scanClean [a, b] l t := by
  intro j hj
  rw [Bool.eq_false_iff]
  intro hp
  cases hd : l.drop j with
  | nil =>
    have := List.drop_eq_nil_iff.mp hd
    omega
  | cons x xr =>
    rw [hd] at hp
    cases xr with
    | nil =>
      rcases ht with rfl | ⟨t', rfl⟩
      · simp [List.isPrefixOf] at hp
      · have hp2 : [a, b] <+: x :: a :: t' := by simpa using hp
        rw [List.cons_prefix_cons] at hp2
        rw [List.cons_prefix_cons] at hp2
        exact hab hp2.2.1.symm
    | cons y yr =>
      have hp2 : [a, b] <+: x :: y :: (yr ++ t) := by simpa using hp
      rw [List.cons_prefix_cons, List.cons_prefix_cons] at hp2
      obtain ⟨hx, hy, -⟩ := hp2
      have hpre : List.isPrefixOf [a, b] (l.drop j) = true := by
        rw [hd, ← hx, ← hy]
        simp [List.isPrefixOf]
      rw [sub_of_prefixOf_drop hpre] at hsub
      exact Bool.noConfusion hsub

theorem scanClean_one {a : Char} {l t : List Char} (h : a ∉ l) :
    scanClean [a] l t := by
  intro j hj
  rw [Bool.eq_false_iff]
  intro hp
  cases hd : l.drop j with
  | nil =>
    have := List.drop_eq_nil_iff.mp hd
    omega
  | cons x xr =>
    rw [hd] at hp
    have hp2 : [a] <+: x :: (xr ++ t) := by simpa using hp
    rw [List.cons_prefix_cons] at hp2
    have hx : x ∈ l := List.mem_of_mem_drop (hd ▸ List.mem_cons_self x xr)
    exact h (hp2.1 ▸ hx)

/-- While scanning a list `l` such that `l ++ "\r\n"` is free of the
blank-line delimiter, the delimiter never matches strictly inside `l` when
the continuation starts with the delimiter itself. -/
theorem scanClean_blank {l t : List Char}
    (h : hasSubList crlf2 (l ++ crlf) = false) : scanClean crlf2 l (crlf2 ++ t) := by
  intro j hj
  rw [Bool.eq_false_iff]
  intro hp
  cases hd : l.drop j with
  | nil =>
    have := List.drop_eq_nil_iff.mp hd
    omega
  | cons x xr =>
    rw [hd] at hp
    cases xr with
    | nil =>
      have hp2 : crlf2 <+: x :: '\r' :: '\n' :: '\r' :: '\n' :: t := by
        simpa using hp
      rw [show crlf2 = '\r' :: '\n' :: '\r' :: '\n' :: ([] : List Char) from rfl,
        List.cons_prefix_cons, List.cons_prefix_cons] at hp2
      exact absurd hp2.2.1 (by decide)
    | cons y yr =>
      cases yr with
      | nil =>
        have hp2 : crlf2 <+: x :: y :: '\r' :: '\n' :: '\r' :: '\n' :: t := by
          simpa using hp
        rw [show crlf2 = '\r' :: '\n' :: '\r' :: '\n' :: ([] : List Char) from rfl,
          List.cons_prefix_cons, List.cons_prefix_cons, List.cons_prefix_cons,
          List.cons_prefix_cons] at hp2
        obtain ⟨hx, hy, -⟩ := hp2
        have e : (l ++ crlf).drop j = [x, y] ++ crlf := by
          rw [List.drop_append_of_le_length (Nat.le_of_lt hj), hd]
        have hpre : crlf2.isPrefixOf ((l ++ crlf).drop j) = true := by
          rw [e, ← hx, ← hy]
          decide
        rw [sub_of_prefixOf_drop hpre] at h
        exact Bool.noConfusion h
      | cons z zr =>
        cases zr with
        | nil =>
          have hp2 : crlf2 <+: x :: y :: z :: '\r' :: '\n' :: '\r' :: '\n' :: t := by
            simpa using hp
          rw [show crlf2 = '\r' :: '\n' :: '\r' :: '\n' :: ([] : List Char) from rfl,
            List.cons_prefix_cons, List.cons_prefix_cons, List.cons_prefix_cons,
            List.cons_prefix_cons] at hp2
          exact absurd hp2.2.2.2.1 (by decide)
        | cons w wr =>
          have hp2 : crlf2 <+: x :: y :: z :: w :: (wr ++ (crlf2 ++ t)) := by
            simpa using hp
          rw [show crlf2 = '\r' :: '\n' :: '\r' :: '\n' :: ([] : List Char) from rfl,
            List.cons_prefix_cons, List.cons_prefix_cons, List.cons_prefix_cons,
            List.cons_prefix_cons] at hp2
          obtain ⟨hx, hy, hz, hw, -⟩ := hp2
          have hpre : crlf2.isPrefixOf (l.drop j) = true := by
            rw [hd, ← hx, ← hy, ← hz, ← hw]
            simp [List.isPrefixOf]
          have h2 := hasSubList_ext (t := crlf) (sub_of_prefixOf_drop hpre)
          rw [h2] at h
          exact Bool.noConfusion h

/-- A nonempty CRLF-free line followed by `[]` or by a chunk starting with
`'\r'` does not start with CRLF. -/
theorem crlf_no_line_start {l t : List Char} (hne : l ≠ [])
    (hfree : hasSubList crlf l = false)
    (ht : t = [] ∨ ∃ u, t = '\r' :: u) : crlf.isPrefixOf (l ++ t) = false := by
  have hscan := scanClean_two (a := '\r') (b := '\n') (by decide) hfree ht
  have h0 := hscan 0 (by cases l with
    | nil => exact absurd rfl hne
    | cons a r => simp)
  simpa using h0

/-- The blank-line delimiter never matches strictly inside one CRLF whose
continuation does not start with CRLF. -/
theorem scanClean_crlf_self {X : List Char} (hX : crlf.isPrefixOf X = false) :
    scanClean crlf2 crlf X := by
  intro j hj
  rcases j with _ | _ | j
  · rw [Bool.eq_false_iff]
    intro hp
    have hp2 : crlf2 <+: crlf ++ X := by simpa using hp
    rw [show crlf2 = crlf ++ crlf from rfl, List.prefix_append_right_inj] at hp2
    rw [Bool.eq_false_iff] at hX
    exact hX (by simpa using hp2)
  · rw [Bool.eq_false_iff]
    intro hp
    have hp2 : crlf2 <+: '\n' :: X := by simpa using hp
    rw [show crlf2 = '\r' :: '\n' :: '\r' :: '\n' :: ([] : List Char) from rfl,
      List.cons_prefix_cons] at hp2
    exact absurd hp2.1 (by decide)
  · exfalso
    simp at hj
    omega

/-- Splitting a CRLF join of CRLF-free lines recovers exactly the lines. -/
theorem splitSep_crlf_join :
    ∀ lines : List (List Char), lines ≠ [] →
      (∀ l ∈ lines, hasSubList crlf l = false) →
      splitSep crlf (joinLines lines) = lines := by
  intro lines
  induction lines with
  | nil => intro h; exact absurd rfl h
  | cons l rest ih =>
    intro _ hfree
    cases rest with
    | nil =>
      have e : joinLines [l] = l := by simp [joinLines, joinTail]
      rw [e]
      exact splitSep_eq_single
        (scanClean_two (by decide) (hfree l (by simp)) (Or.inl rfl))
    | cons l2 rest2 =>
      have e : joinLines (l :: l2 :: rest2) = l ++ (crlf ++ joinLines (l2 :: rest2)) := by
        simp [joinLines, joinTail, List.append_assoc]
      have hscan : scanClean crlf l (crlf ++ joinLines (l2 :: rest2)) :=
        scanClean_two (by decide) (hfree l (by simp)) (Or.inr ⟨_, rfl⟩)
      rw [e, splitSep_append hscan, splitSep_sep_self (by decide),
        ih (by simp) (fun x hx => hfree x (List.mem_cons_of_mem l hx))]
      simp [prependFirst]

/-- Splitting `head ++ "\r\n\r\n" ++ body` on the blank-line delimiter, when
the head is a CRLF join of nonempty CRLF-free lines and the body is
delimiter-free, yields exactly the head and the body. -/
theorem splitSep_blank_join :
    ∀ lines : List (List Char), ∀ b : List Char, lines ≠ [] →
      (∀ l ∈ lines, l ≠ [] ∧ hasSubList crlf l = false) →
      hasSubList crlf2 b = false →
      splitSep crlf2 (joinLines lines ++ (crlf2 ++ b)) = [joinLines lines, b] := by
  intro lines
  induction lines with
  | nil => intro b h; exact absurd rfl h
  | cons l rest ih =>
    intro b _ hfree hb
    have hl := hfree l (by simp)
    cases rest with
    | nil =>
      have e : joinLines [l] = l := by simp [joinLines, joinTail]
      rw [e]
      have h1 : scanClean crlf l (crlf2 ++ b) :=
        scanClean_two (by decide) hl.2 (Or.inr ⟨_, rfl⟩)
      have hscan : scanClean crlf2 l (crlf2 ++ b) := by
        have h2 := scanClean_ext (q := crlf) h1
        rw [show crlf ++ crlf = crlf2 from rfl] at h2
        exact h2
      rw [splitSep_append hscan, splitSep_sep_self (by decide),
        splitSep_eq_single (scanClean_of_no_sub hb)]
      simp [prependFirst]
    | cons l2 rest2 =>
      have e : joinLines (l :: l2 :: rest2) = (l ++ crlf) ++ joinLines (l2 :: rest2) := by
        simp [joinLines, joinTail, List.append_assoc]
      have e2 : joinLines (l2 :: rest2) ++ (crlf2 ++ b) =
          l2 ++ (joinTail rest2 ++ (crlf2 ++ b)) := by
        simp [joinLines, List.append_assoc]
      have hl2 := hfree l2 (by simp)
      have h0 : crlf.isPrefixOf (joinLines (l2 :: rest2) ++ (crlf2 ++ b)) = false := by
        rw [e2]
        apply crlf_no_line_start hl2.1 hl2.2
        cases rest2 with
        | nil => exact Or.inr ⟨_, rfl⟩
        | cons a r => exact Or.inr ⟨_, rfl⟩
      have hscan : scanClean crlf2 (l ++ crlf)
          (joinLines (l2 :: rest2) ++ (crlf2 ++ b)) := by
        apply scanClean_append
        · have h1 : scanClean crlf l
              (crlf ++ (joinLines (l2 :: rest2) ++ (crlf2 ++ b))) :=
            scanClean_two (by decide) hl.2 (Or.inr ⟨_, rfl⟩)
          have h2 := scanClean_ext (q := crlf) h1
          rw [show crlf ++ crlf = crlf2 from rfl] at h2
          exact h2
        · exact scanClean_crlf_self h0
      rw [e, List.append_assoc, splitSep_append hscan,
        ih b (by simp) (fun x hx => hfree x (List.mem_cons_of_mem l hx)) hb]
      simp [prependFirst]

theorem getKey_setKey {α : Type} (l : List (String × α)) (k k2 : String) (v : α) :
    getKey (setKey l k v) k2 = if k2 = k then some v else getKey l k2 := by
  induction l with
  | nil =>
    by_cases h : k2 = k
    · simp [setKey, getKey, h]
    · have h' : ¬ k = k2 := fun hh => h hh.symm
      simp [setKey, getKey, h, h']
  | cons q rest ih =>
    obtain ⟨k', v'⟩ := q
    by_cases h1 : k' = k
    · subst h1
      by_cases h2 : k2 = k'
      · simp [setKey, getKey, h2]
      · have h2' : ¬ k' = k2 := fun hh => h2 hh.symm
        simp [setKey, getKey, h2, h2']
    · simp only [setKey, if_neg h1, getKey]
      by_cases h3 : k' = k2
      · have h2 : ¬ k2 = k := fun hh => h1 (h3.trans hh)
        simp [h3, h2]
      · simp [h3, ih]

theorem setKey_append_of_not_mem {α : Type} (l : List (String × α)) (k : String) (v : α)
    (h : k ∉ l.map Prod.fst) : setKey l k v = l ++ [(k, v)] := by
  induction l with
  | nil => simp [setKey]
  | cons q rest ih =>
    obtain ⟨k', v'⟩ := q
    simp only [List.map_cons, List.mem_cons] at h
    push_neg at h
    have h1 : ¬ k' = k := fun hh => h.1 hh.symm
    simp [setKey, h1, ih h.2]

/-- A two-character pattern does not occur in `x ++ c :: y` when it occurs in
neither part and `c` is none of its characters. -/
theorem hasSubList_two_around {a b c : Char} (hca : c ≠ a) (hcb : c ≠ b) :
    ∀ {x y : List Char}, hasSubList [a, b] x = false →
      hasSubList [a, b] y = false →
      hasSubList [a, b] (x ++ c :: y) = false := by
  intro x
  induction x with
  | nil =>
    intro y _ hy
    simp only [List.nil_append, hasSubList, Bool.or_eq_false_iff]
    refine ⟨?_, hy⟩
    rw [Bool.eq_false_iff]
    intro hp
    have hp2 : [a, b] <+: c :: y := by simpa using hp
    rw [List.cons_prefix_cons] at hp2
    exact hca hp2.1.symm
  | cons d x' ih =>
    intro y hx hy
    have hx' : hasSubList [a, b] x' = false := by
      have h2 := hx
      simp only [hasSubList, Bool.or_eq_false_iff] at h2
      exact h2.2
    have hpre : List.isPrefixOf [a, b] (d :: (x' ++ c :: y)) = false := by
      rw [Bool.eq_false_iff]
      intro hp
      have hp2 : [a, b] <+: d :: (x' ++ c :: y) := by simpa using hp
      rw [List.cons_prefix_cons] at hp2
      cases hx2 : x' with
      | nil =>
        rw [hx2, List.nil_append, List.cons_prefix_cons] at hp2
        exact hcb hp2.2.1.symm
      | cons e x'' =>
        rw [hx2, List.cons_append, List.cons_prefix_cons] at hp2
        have hpx : List.isPrefixOf [a, b] (d :: e :: x'') = true := by
          rw [← hp2.1, ← hp2.2.1]
          simp [List.isPrefixOf]
        have hdx : hasSubList [a, b] (d :: x') = true := by
          rw [hx2]
          exact sub_of_prefixOf_drop (l := d :: e :: x'') (j := 0)
            (by rw [List.drop_zero]; exact hpx)
        rw [hdx] at hx
        exact Bool.noConfusion hx
    simp only [List.cons_append, hasSubList, Bool.or_eq_false_iff]
    exact ⟨hpre, ih hx' hy⟩

theorem mk_data (s : String) : String.mk s.data = s := rfl

theorem data_mk (l : List Char) : (String.mk l).data = l := rfl

theorem data_crlf : ("\r\n" : String).data = crlf := rfl

theorem data_crlf2 : ("\r\n\r\n" : String).data = crlf2 := rfl

theorem data_colonSp : (": " : String).data = colonSp := rfl

theorem data_space : (" " : String).data = [' '] := rfl

theorem parseHeaderLine_mk (n v : String)
    (hn : hasSubList colonSp n.data = false)
    (hv : hasSubList colonSp v.data = false) :
    parseHeaderLine (String.mk (lineChars (n, v))) = (n, some v) := by
  unfold parseHeaderLine jsSplit
  have hd : (String.mk (lineChars (n, v))).data = n.data ++ (colonSp ++ v.data) := by
    simp [lineChars, List.append_assoc]
  rw [hd, data_colonSp]
  have hscan : scanClean colonSp n.data (colonSp ++ v.data) :=
    scanClean_two (by decide) hn (Or.inr ⟨_, rfl⟩)
  rw [splitSep_append hscan, splitSep_sep_self (by decide),
    splitSep_eq_single (scanClean_of_no_sub hv)]
  simp [prependFirst, mk_data]

theorem splitSep_reqline (m p : String) (hm : ' ' ∉ m.data) (hp : ' ' ∉ p.data) :
    splitSep [' '] (m.data ++ ' ' :: p.data) = [m.data, p.data] := by
  have h1 : scanClean [' '] m.data ([' '] ++ p.data) := scanClean_one hm
  have e : m.data ++ ' ' :: p.data = m.data ++ ([' '] ++ p.data) := by simp
  rw [e, splitSep_append h1, splitSep_sep_self (by decide),
    splitSep_eq_single (scanClean_one hp)]
  simp [prependFirst]

theorem headerText_data (hs : List (String × String)) :
    (headerText hs).data = joinTail (hs.map lineChars) := by
  induction hs with
  | nil => rfl
  | cons q rest ih =>
    obtain ⟨n, v⟩ := q
    simp [headerText, joinTail, lineChars, ih, List.append_assoc, data_crlf,
      data_colonSp]

theorem assemble_data (m p : String) (hs : List (String × String)) (b : String) :
    (assemble m p hs b).data =
      joinLines ((m.data ++ ' ' :: p.data) :: hs.map lineChars) ++
        (crlf2 ++ b.data) := by
  simp [assemble, joinLines, headerText_data, List.append_assoc, data_crlf2,
    data_space]

/-- Folding the header loop over rebuilt header lines with pairwise-distinct
names appends the decoded bindings in order. -/
theorem foldl_headers :
    ∀ (hs : List (String × String)) (acc : List (String × Option String)),
      (∀ q ∈ hs, hasSubList colonSp q.1.data = false ∧
        hasSubList colonSp q.2.data = false) →
      hs.Pairwise (fun q r => q.1 ≠ r.1) →
      (∀ q ∈ hs, q.1 ∉ acc.map Prod.fst) →
      (hs.map (fun q => String.mk (lineChars q))).foldl
        (fun acc line => setKey acc (parseHeaderLine line).1 (parseHeaderLine line).2)
        acc
        = acc ++ hs.map (fun q => (q.1, some q.2)) := by
  intro hs
  induction hs with
  | nil => intro acc _ _ _; simp
  | cons q rest ih =>
    intro acc hcol hpw hdisj
    obtain ⟨n, v⟩ := q
    have hq := hcol (n, v) (by simp)
    simp only [List.map_cons, List.foldl_cons]
    rw [parseHeaderLine_mk n v hq.1 hq.2]
    rw [setKey_append_of_not_mem acc n (some v) (hdisj (n, v) (by simp))]
    rw [ih (acc ++ [(n, some v)])
      (fun r hr => hcol r (List.mem_cons_of_mem _ hr))
      (List.Pairwise.of_cons hpw)
      ?_]
    · simp
    · intro r hr
      simp only [List.map_append, List.mem_append]
      push_neg
      constructor
      · exact hdisj r (List.mem_cons_of_mem _ hr)
      · have hne := (List.pairwise_cons.mp hpw).1 r hr
        simp
        exact fun hh => hne hh.symm

/-- Claim C4 (corrected): `parseRequest` is a right inverse of request
reassembly on well-formed requests, where well-formedness must additionally
require the method and the path to be free of `"\r\n"` (the claim's
conditions — method and path merely space-free — are not enough, see the
counterexample) and the header names to be pairwise distinct (headers form a
record): reassembling the wire text as request line, CRLF-separated
`Name: Value` header lines, a blank line, then the body, and parsing it
again, yields the same structure back. -/
theorem claim_C4 (m p : String) (hs : List (String × String)) (b : String)
    (hm1 : ' ' ∉ m.data) (hp1 : ' ' ∉ p.data)
    (hm2 : hasSub "\r\n" m = false) (hp2 : hasSub "\r\n" p = false)
    (hhs : ∀ q ∈ hs, hasSub "\r\n" q.1 = false ∧ hasSub ": " q.1 = false ∧
      hasSub "\r\n" q.2 = false ∧ hasSub ": " q.2 = false)
    (hb : hasSub "\r\n\r\n" b = false)
    (hpw : hs.Pairwise (fun q r => q.1 ≠ r.1)) :
    parseRequest (assemble m p hs b) =
      ⟨m, some p, hs.map (fun q => (q.1, some q.2)), b⟩ := by
  unfold hasSub at hm2 hp2 hb
  rw [data_crlf] at hm2 hp2
  rw [data_crlf2] at hb
  have hline : ∀ q ∈ hs, lineChars q ≠ [] ∧ hasSubList crlf (lineChars q) = false := by
    intro q hq
    obtain ⟨n, v⟩ := q
    have h4 := hhs (n, v) hq
    have hn : hasSubList crlf n.data = false := by
      have h5 := h4.1
      unfold hasSub at h5
      rwa [data_crlf] at h5
    have hv : hasSubList crlf v.data = false := by
      have h5 := h4.2.2.1
      unfold hasSub at h5
      rwa [data_crlf] at h5
    refine ⟨by simp [lineChars], ?_⟩
    have e : lineChars (n, v) = n.data ++ ':' :: (' ' :: v.data) := by
      simp [lineChars, colonSp]
    rw [e]
    apply hasSubList_two_around (by decide) (by decide) hn
    have h6 := hasSubList_two_around (a := '\r') (b := '\n') (c := ' ')
      (by decide) (by decide) (x := []) (y := v.data) (by decide) hv
    simpa using h6
  have hreq : (m.data ++ ' ' :: p.data) ≠ [] ∧
      hasSubList crlf (m.data ++ ' ' :: p.data) = false :=
    ⟨by simp, hasSubList_two_around (by decide) (by decide) hm2 hp2⟩
  have hlines : ∀ l ∈ (m.data ++ ' ' :: p.data) :: hs.map lineChars,
      l ≠ [] ∧ hasSubList crlf l = false := by
    intro l hl
    rcases List.mem_cons.mp hl with rfl | hl2
    · exact hreq
    · obtain ⟨q, hq, rfl⟩ := List.mem_map.mp hl2
      exact hline q hq
  have hsplit : splitSep crlf2 ((assemble m p hs b).data) =
      [joinLines ((m.data ++ ' ' :: p.data) :: hs.map lineChars), b.data] := by
    rw [assemble_data]
    exact splitSep_blank_join _ b.data (by simp) hlines hb
  have hlsplit :
      splitSep crlf (joinLines ((m.data ++ ' ' :: p.data) :: hs.map lineChars)) =
      (m.data ++ ' ' :: p.data) :: hs.map lineChars :=
    splitSep_crlf_join _ (by simp) (fun l hl => (hlines l hl).2)
  have hcol : ∀ q ∈ hs, hasSubList colonSp q.1.data = false ∧
      hasSubList colonSp q.2.data = false := by
    intro q hq
    have h4 := hhs q hq
    constructor
    · have h5 := h4.2.1
      unfold hasSub at h5
      rwa [data_colonSp] at h5
    · have h5 := h4.2.2.2
      unfold hasSub at h5
      rwa [data_colonSp] at h5
  simp only [parseRequest, jsSplit, data_crlf2, data_crlf, data_space]
  rw [hsplit]
  simp only [List.map_cons, List.map_nil, List.headD_cons, List.getElem?_cons_succ,
    List.getElem?_cons_zero, Option.getD_some, data_mk]
  rw [hlsplit]
  simp only [List.map_cons, List.headD_cons, List.drop_succ_cons, List.drop_zero,
    data_mk]
  rw [splitSep_reqline m p hm1 hp1]
  simp only [List.map_cons, List.map_nil, List.headD_cons, List.getElem?_cons_succ,
    List.getElem?_cons_zero, mk_data, List.map_map]
  simp only [HttpRequest.mk.injEq, true_and, and_true]
  exact foldl_headers hs [] hcol hpw (by simp)

/-- One registration completely determines subsequent lookups: the new
handler is found exactly for the upper-cased method (case-insensitively) and
the byte-identical path; every other lookup is unchanged. -/
theorem getRoute_registerRoute (rt : RouteTable) (m p : String) (h : Handler)
    (m2 p2 : String) :
    getRoute (registerRoute rt m p h) m2 p2 =
      if toUpperJS m2 = toUpperJS m ∧ p2 = p then some h
      else getRoute rt m2 p2 := by
  unfold getRoute registerRoute
  rw [getKey_setKey]
  by_cases hm : toUpperJS m2 = toUpperJS m
  · simp only [hm, if_true, eq_self_iff_true, true_and]
    rw [getKey_setKey]
    by_cases hp2 : p2 = p
    · simp [hp2]
    · simp only [hp2, if_false]
      cases hg : getKey rt (toUpperJS m) with
      | none => simp [hg, getKey]
      | some mr => simp [hg]
  · simp only [hm, false_and, if_false]

theorem utf8CharLen_eq (c : Char) : utf8CharLen c = c.utf8Size := by
  have key : ∀ (m : Nat) (hlt : m < UInt32.size),
      ((c.val ≤ UInt32.ofNatCore m hlt) ↔ c.toNat ≤ m) := by
    intro m hlt
    rw [UInt32.le_def, BitVec.le_def]
    simp [UInt32.ofNatCore, UInt32.toNat, Char.toNat]
  unfold utf8CharLen Char.utf8Size
  simp only [key]
  split_ifs <;> omega

theorem utf8Len_go (l : List Char) : ∀ n : Nat,
    l.foldl (fun n c => n + utf8CharLen c) n = n + String.utf8ByteSize.go l := by
  induction l with
  | nil => intro n; simp [String.utf8ByteSize.go]
  | cons c rest ih =>
    intro n
    rw [List.foldl_cons, ih (n + utf8CharLen c)]
    simp only [String.utf8ByteSize.go, utf8CharLen_eq]
    omega

/-- The byte count the server writes into `Content-Length` is the UTF-8 byte
size of the body string. -/
theorem utf8Len_eq (s : String) : utf8Len s = s.utf8ByteSize := by
  obtain ⟨data⟩ := s
  show data.foldl (fun n c => n + utf8CharLen c) 0 = String.utf8ByteSize.go data
  simpa using utf8Len_go data 0

/-- Claim C1 (corrected): `parseRequest` splits the buffer on every
occurrence of the blank-line delimiter, and the returned body is only the
segment strictly between the first and the second occurrence — it is not the
verbatim remainder; any text after a further `"\r\n\r\n"` inside the body is
dropped.  Here stated for a buffer `head ++ "\r\n\r\n" ++ b1 ++ "\r\n\r\n" ++ b2`
whose head and first body chunk contain no delimiter (also not at their
boundary with the following CRLF). -/
theorem claim_C1 (head b1 b2 : String)
    (hh : hasSub "\r\n\r\n" (head ++ "\r\n") = false)
    (h1 : hasSub "\r\n\r\n" (b1 ++ "\r\n") = false) :
    (parseRequest (head ++ "\r\n\r\n" ++ b1 ++ "\r\n\r\n" ++ b2)).body = b1 := by
  unfold hasSub at hh h1
  rw [data_crlf2, String.data_append, data_crlf] at hh h1
  have hscanh : scanClean crlf2 head.data (crlf2 ++ (b1.data ++ (crlf2 ++ b2.data))) :=
    scanClean_blank hh
  have hscan1 : scanClean crlf2 b1.data (crlf2 ++ b2.data) := scanClean_blank h1
  have hdata : (head ++ "\r\n\r\n" ++ b1 ++ "\r\n\r\n" ++ b2).data =
      head.data ++ (crlf2 ++ (b1.data ++ (crlf2 ++ b2.data))) := by
    simp [data_crlf2, List.append_assoc]
  have hsplit : splitSep crlf2 ((head ++ "\r\n\r\n" ++ b1 ++ "\r\n\r\n" ++ b2).data) =
      head.data :: b1.data :: splitSep crlf2 b2.data := by
    rw [hdata, splitSep_append hscanh, splitSep_sep_self (by decide),
      splitSep_append hscan1, splitSep_sep_self (by decide)]
    simp [prependFirst]
  simp only [parseRequest, jsSplit, data_crlf2]
  rw [hsplit]
  simp [mk_data]

/-- Claim C1 (counterexample): on the buffer
`"POST /x HTTP/1.1\r\n\r\nA\r\n\r\nB"` the returned body is `"A"`, not the
verbatim remainder `"A\r\n\r\nB"` the claim asserts. -/
theorem claim_C1_counterexample :
    (parseRequest "POST /x HTTP/1.1\r\n\r\nA\r\n\r\nB").body = "A" ∧
      ("A" : String) ≠ "A\r\n\r\nB" := by
  constructor
  · decide
  · decide

/-- Claim C1 (witness): the amended statement applied to a concrete buffer. -/
theorem claim_C1_witness :
    hasSub "\r\n\r\n" ("GET / HTTP/1.1" ++ "\r\n") = false ∧
    hasSub "\r\n\r\n" ("A" ++ "\r\n") = false ∧
    (parseRequest ("GET / HTTP/1.1" ++ "\r\n\r\n" ++ "A" ++ "\r\n\r\n" ++ "B")).body =
      "A" :=
  ⟨by decide, by decide, claim_C1 "GET / HTTP/1.1" "A" "B" (by decide) (by decide)⟩

/-- Claim C2 (corrected): a head line is split on every occurrence of
`": "`; the header name is the text before the first occurrence and the
header value is only the text strictly between the first and the second
occurrence — a value that itself contains `": "` is truncated at it, not
kept whole.  A line with no `": "` still yields an undefined (`none`)
value. -/
theorem claim_C2 (n v1 v2 : String)
    (hn : hasSub ": " n = false) (hv : hasSub ": " v1 = false) :
    parseHeaderLine (n ++ ": " ++ v1 ++ ": " ++ v2) = (n, some v1) ∧
    (∀ l : String, hasSub ": " l = false → parseHeaderLine l = (l, none)) := by
  constructor
  · unfold hasSub at hn hv
    rw [data_colonSp] at hn hv
    have hdata : (n ++ ": " ++ v1 ++ ": " ++ v2).data =
        n.data ++ (colonSp ++ (v1.data ++ (colonSp ++ v2.data))) := by
      simp [data_colonSp, List.append_assoc]
    have hs1 : scanClean colonSp n.data (colonSp ++ (v1.data ++ (colonSp ++ v2.data))) :=
      scanClean_two (by decide) hn (Or.inr ⟨_, rfl⟩)
    have hs2 : scanClean colonSp v1.data (colonSp ++ v2.data) :=
      scanClean_two (by decide) hv (Or.inr ⟨_, rfl⟩)
    unfold parseHeaderLine jsSplit
    rw [data_colonSp, hdata, splitSep_append hs1, splitSep_sep_self (by decide),
      splitSep_append hs2, splitSep_sep_self (by decide)]
    simp [prependFirst, mk_data]
  · intro l hl
    unfold hasSub at hl
    rw [data_colonSp] at hl
    unfold parseHeaderLine jsSplit
    rw [data_colonSp, splitSep_eq_single (scanClean_of_no_sub hl)]
    simp [mk_data]

/-- Claim C2 (counterexample): the head line `"Host: a: b"` produces the
header value `"a"`, not the whole `"a: b"` the claim asserts. -/
theorem claim_C2_counterexample :
    (parseRequest "GET / HTTP/1.1\r\nHost: a: b\r\n\r\n").headers =
      [("Host", some "a")] ∧ some ("a" : String) ≠ some ("a: b" : String) := by
  constructor
  · decide
  · decide

/-- Claim C2 (witness): the amended statement applied to a concrete line. -/
theorem claim_C2_witness :
    hasSub ": " "Host" = false ∧ hasSub ": " "a" = false ∧
    parseHeaderLine ("Host" ++ ": " ++ "a" ++ ": " ++ "b") = ("Host", some "a") ∧
    parseHeaderLine "nocolon" = ("nocolon", none) := by
  have h := claim_C2 "Host" "a" "b" (by decide) (by decide)
  exact ⟨by decide, by decide, h.1, h.2 "nocolon" (by decide)⟩

/-- Claim C3 (confirmed): whenever the (upper-cased method, path) pair of a
decoded request has no registered handler, `handleRequest` produces exactly
`{statusCode := 404, contentType := "text/plain", body := "Not Found"}`;
an unmatched method and an unmatched path are indistinguishable — both fall
through to this same response, and no 405 is ever produced. -/
theorem claim_C3 (routes : RouteTable) (req : HttpRequest)
    (h : getRoute routes req.method (jsKey req.path) = none) :
    handleRequest routes req = ⟨404, "text/plain", "Not Found"⟩ := by
  unfold handleRequest
  unfold getRoute at h
  cases hg : getKey routes (toUpperJS req.method) with
  | none => rfl
  | some mr =>
    rw [hg] at h
    have h2 : getKey mr (jsKey req.path) = none := h
    show (match getKey mr (jsKey req.path) with
      | some handler => handler req
      | none => (⟨404, "text/plain", "Not Found"⟩ : HttpResponse)) =
      (⟨404, "text/plain", "Not Found"⟩ : HttpResponse)
    rw [h2]

/-- Claim C3 (witness): a table with only `GET /` answers 404 both to a
request with an unmatched method and to one with an unmatched path. -/
theorem claim_C3_witness :
    getRoute [("GET", [("/", fun _ => ⟨200, "text/plain", "home"⟩)])]
        "DELETE" "/" = none ∧
    handleRequest [("GET", [("/", fun _ => ⟨200, "text/plain", "home"⟩)])]
        ⟨"DELETE", some "/", [], ""⟩ = ⟨404, "text/plain", "Not Found"⟩ ∧
    handleRequest [("GET", [("/", fun _ => ⟨200, "text/plain", "home"⟩)])]
        ⟨"GET", some "/missing", [], ""⟩ = ⟨404, "text/plain", "Not Found"⟩ :=
  ⟨rfl,
    claim_C3 [("GET", [("/", fun _ => ⟨200, "text/plain", "home"⟩)])]
      ⟨"DELETE", some "/", [], ""⟩ rfl,
    claim_C3 [("GET", [("/", fun _ => ⟨200, "text/plain", "home"⟩)])]
      ⟨"GET", some "/missing", [], ""⟩ rfl⟩

/-- Claim C4 (counterexample): the claim's own well-formedness conditions
(method and path merely space-free, body delimiter-free) admit the method
`"A\r\nB"`, and the round trip fails on it: the reassembled request parses
back with method `"A"`. -/
theorem claim_C4_counterexample :
    (' ' ∉ ("A\r\nB" : String).data) ∧ (' ' ∉ ("/" : String).data) ∧
    hasSub "\r\n\r\n" "" = false ∧
    parseRequest (assemble "A\r\nB" "/" [] "") ≠
      ⟨"A\r\nB", some "/", [], ""⟩ := by
  refine ⟨by decide, by decide, by decide, by decide⟩

/-- Claim C4 (witness): the amended round trip on a concrete request. -/
theorem claim_C4_witness :
    (' ' ∉ ("GET" : String).data) ∧ (' ' ∉ ("/" : String).data) ∧
    hasSub "\r\n" "GET" = false ∧ hasSub "\r\n" "/" = false ∧
    hasSub "\r\n\r\n" "body text" = false ∧
    parseRequest (assemble "GET" "/" [("Host", "x")] "body text") =
      ⟨"GET", some "/", [("Host", some "x")], "body text"⟩ := by
  refine ⟨by decide, by decide, by decide, by decide, by decide, ?_⟩
  exact claim_C4 "GET" "/" [("Host", "x")] "body text" (by decide) (by decide)
    (by decide) (by decide) (by decide) (by decide) (by decide)

/-- Claim C5 (confirmed): the numeric value the response encoder writes in
the `Content-Length` header is the UTF-8 byte length of the body string
(`utf8Len`, the model of `Buffer.byteLength`, equals `String.utf8ByteSize`),
not its character count — as the multi-byte example shows. -/
theorem claim_C5 :
    (∀ resp : HttpResponse,
      sendResponse resp =
        "HTTP/1.1 " ++ toString resp.statusCode ++ " " ++
          reasonPhrase resp.statusCode ++ "\r\n" ++
        "Content-Type: " ++ resp.contentType ++ "\r\n" ++
        "Content-Length: " ++ toString resp.body.utf8ByteSize ++ "\r\n\r\n" ++
        resp.body) ∧
    utf8Len "é" = 2 ∧ ("é" : String).length = 1 := by
  refine ⟨?_, by decide, by decide⟩
  intro resp
  unfold sendResponse
  rw [utf8Len_eq]

/-- Claim C6 (confirmed): the reason phrase is `"OK"` exactly for status
code 200 and the literal `"Error"` for every other code; in particular a
201 response is encoded with reason phrase `"Error"`, not `"Created"`. -/
theorem claim_C6 :
    (∀ code : Int, (reasonPhrase code = "OK" ↔ code = 200) ∧
      (reasonPhrase code = "OK" ∨ reasonPhrase code = "Error")) ∧
    sendResponse ⟨201, "text/plain", "Created!"⟩ =
      "HTTP/1.1 201 Error\r\nContent-Type: text/plain\r\nContent-Length: 8\r\n\r\nCreated!" := by
  constructor
  · intro code
    constructor
    · constructor
      · intro h
        by_contra hne
        rw [reasonPhrase, if_neg hne] at h
        exact absurd h (by decide)
      · intro h
        simp [reasonPhrase, h]
    · by_cases h : code = 200 <;> simp [reasonPhrase, h]
  · decide

/-- Claim C7 (confirmed): one registration stores the handler under the
upper-cased method and the exact path, later registrations for the same key
silently overwrite earlier ones (last-registered-wins, so at most one
handler per key), and lookup matches the method case-insensitively (via
upper-casing) and the path byte-for-byte, with every other key unchanged —
no wildcard or prefix matching. -/
theorem claim_C7 :
    (∀ (rt : RouteTable) (m p : String) (h : Handler) (m2 p2 : String),
      getRoute (registerRoute rt m p h) m2 p2 =
        if toUpperJS m2 = toUpperJS m ∧ p2 = p then some h
        else getRoute rt m2 p2) ∧
    (∀ (rt : RouteTable) (m p : String) (h1 h2 : Handler),
      getRoute (registerRoute (registerRoute rt m p h1) m p h2) m p = some h2) := by
  refine ⟨getRoute_registerRoute, ?_⟩
  intro rt m p h1 h2
  rw [getRoute_registerRoute]
  simp

/-- Claim C8 (confirmed): `parseBody` decodes the documented example to the
expected mapping, with percent-decoded keys and values. -/
theorem claim_C8 :
    parseBody "name=FirstName%20LastName&email=bsmth%40example.com" =
      [("name", "FirstName LastName"), ("email", "bsmth@example.com")] := by
  decide

/-- Claim C9 (confirmed): a buffer without any `"\r\n\r\n"` splits into a
single segment — the whole buffer is the head — and the parsed body is the
empty string; `parseRequest` is total, so this fallback never fails. -/
theorem claim_C9 (s : String) (h : hasSub "\r\n\r\n" s = false) :
    jsSplit s "\r\n\r\n" = [s] ∧ (parseRequest s).body = "" := by
  unfold hasSub at h
  rw [data_crlf2] at h
  have hsplit : splitSep crlf2 s.data = [s.data] :=
    splitSep_eq_single (scanClean_of_no_sub h)
  constructor
  · unfold jsSplit
    rw [data_crlf2, hsplit]
    simp [mk_data]
  · simp only [parseRequest, jsSplit, data_crlf2]
    rw [hsplit]
    simp

/-- Claim C9 (witness): a delimiter-free buffer parsed concretely. -/
theorem claim_C9_witness :
    hasSub "\r\n\r\n" "GET / HTTP/1.1\r\nHost: x" = false ∧
    jsSplit "GET / HTTP/1.1\r\nHost: x" "\r\n\r\n" = ["GET / HTTP/1.1\r\nHost: x"] ∧
    (parseRequest "GET / HTTP/1.1\r\nHost: x").body = "" := by
  refine ⟨by decide, ?_, ?_⟩
  · exact (claim_C9 "GET / HTTP/1.1\r\nHost: x" (by decide)).1
  · exact (claim_C9 "GET / HTTP/1.1\r\nHost: x" (by decide)).2

/-- Claim C10 (confirmed): beyond percent-decoding, `parseBody` decodes `+`
as a space in both keys and values (URLSearchParams form semantics):
`"a=b+c"` maps `"a"` to `"b c"`, not to `"b+c"`; a key `"a+b"` becomes
`"a b"`; and `+` is decoded at every position of keys and values alike,
including leading and trailing ones. -/
theorem claim_C10 :
    parseBody "a=b+c" = [("a", "b c")] ∧
    parseBody "a+b=c" = [("a b", "c")] ∧
    parseBody "a+b=c+d&+e+=+f+" = [("a b", "c d"), (" e ", " f ")] ∧
    ("b c" : String) ≠ "b+c" ∧ ("a b" : String) ≠ "a+b" := by
  refine ⟨by decide, by decide, by decide, by decide, by decide⟩
